import Mathlib

/-
Verification development for the Beeper Matrix ETL tool.

The definitions below are a shallow embedding of the retry queue engine
(src/src/server/types/message-queue.ts, class MessageQueueImpl) and of the
sync orchestrator (src/src/server/matrix/sync.ts, class SyncManager, and the
MatrixClient variant in the same file).  JavaScript `Map`s are embedded as
insertion-ordered association lists; optional numeric fields whose every use
is `x || 0` or a falsy test are embedded as `Nat` with `0` for `undefined`;
async methods that only sequence awaited pure steps are embedded as pure
state-passing functions.
-/

set_option linter.unusedVariables false

namespace ETL

/-- Queue lanes: the `QueueItemType` union of message-queue.ts. -/
inductive Lane where
  | message
  | retry_decrypt
  | error
  | retry
deriving DecidableEq

/-- A queue item (`interface QueueItem`).  The underlying Matrix event and
room are flattened to the fields the queue and the persistence writer read:
event id, room id, raw event content, encrypted flag.  `retryCount` embeds
the optional TypeScript number as a `Nat` with `0` for `undefined` (every
source use is `item.retryCount || 0` or a falsy test). -/
structure QueueItem where
  eventId : String
  roomId : String
  eventContent : String
  isEncrypted : Bool
  type : Lane
  retryCount : Nat
  timestamp : Option String
  error : Option String
deriving DecidableEq

/-- Queue-level identity (`getItemKey`): the source builds the string
`id + "_" + type`; we embed it as the pair, which the concatenation encodes
injectively for these four lane tags. -/
abbrev Key : Type := String × Lane

def itemKey (item : QueueItem) : Key := (item.eventId, item.type)

/-! JavaScript `Map` embedded as an insertion-ordered association list:
`set` replaces in place or appends, `delete` removes the entry,
iteration order is list order. -/

def mget {K V : Type} [DecidableEq K] : List (K × V) → K → Option V
  | [], _ => none
  | p :: rest, k => if p.1 = k then some p.2 else mget rest k

def mhas {K V : Type} [DecidableEq K] (m : List (K × V)) (k : K) : Bool :=
  (mget m k).isSome

def mdelete {K V : Type} [DecidableEq K] (m : List (K × V)) (k : K) : List (K × V) :=
  m.filter (fun p => decide (p.1 ≠ k))

def mset {K V : Type} [DecidableEq K] (m : List (K × V)) (k : K) (v : V) : List (K × V) :=
  if mhas m k then m.map (fun p => if p.1 = k then (k, v) else p) else m ++ [(k, v)]

/-- The four `Map` fields of `MessageQueueImpl` (`queue` is the pending
lane), plus the pending `setTimeout` callbacks scheduled by retry handling:
each timer, once it fires, deletes its key from `retrying` and sets it in
`queue`. -/
structure QState where
  queue : List (Key × QueueItem)
  processing : List (Key × QueueItem)
  failed : List (Key × QueueItem)
  retrying : List (Key × QueueItem)
  timers : List (Nat × Key × QueueItem)
deriving DecidableEq

def QState.empty : QState := ⟨[], [], [], [], []⟩

/-- `private readonly maxRetries: number = 3`. -/
def maxRetries : Nat := 3

/-- `private readonly retryDelays: number[] = [1000, 5000, 30000]`. -/
def retryDelays : List Nat := [1000, 5000, 30000]

/-- The backoff delay scheduled for a retry whose incremented count is `rc`:
`retryDelays[Math.min(rc - 1, retryDelays.length - 1)]`. -/
def retryDelay (rc : Nat) : Nat :=
  retryDelays.getD (min (rc - 1) (retryDelays.length - 1)) 0

/-- The timestamp mutation at the top of `enqueue`: `if (!item.timestamp)
item.timestamp = new Date().toISOString()`. -/
def stamp (now : String) (item : QueueItem) : QueueItem :=
  if item.timestamp.isNone then { item with timestamp := some now } else item

/-- `enqueue(item)` (message-queue.ts lines 47-79).  `now` is the ISO
timestamp `new Date().toISOString()` would produce. -/
def enqueue (now : String) (st : QState) (item : QueueItem) : QState :=
  let key := itemKey item
  if mhas st.processing key then st
  else
    let item1 := stamp now item
    if item1.type = Lane.retry then
      let rc := item1.retryCount + 1
      if rc ≤ maxRetries then
        let item2 := { item1 with retryCount := rc }
        { st with retrying := mset st.retrying key item2,
                  timers := st.timers ++ [(retryDelay rc, key, item2)] }
      else
        { st with failed := mset st.failed key item1 }
    else
      { st with queue := mset st.queue key item1 }

/-- The body of the `setTimeout` callback scheduled by `enqueue` for a retry
item: delete the key from `retrying`, set it in the pending map. -/
def fireTimer (st : QState) (k : Key) (item : QueueItem) : QState :=
  { st with retrying := mdelete st.retrying k, queue := mset st.queue k item }

/-- A pending key is "priority" when its item's retry count is falsy
(`!this.queue.get(key)?.retryCount`). -/
def freshKey (q : List (Key × QueueItem)) (k : Key) : Bool :=
  match mget q k with
  | some it => decide (it.retryCount = 0)
  | none => true

/-- One step of the key loop of `dequeue`: look the key up, push the item,
delete it from pending, set it in processing. -/
def dequeueStep (acc : List QueueItem × QState) (k : Key) : List QueueItem × QState :=
  match mget acc.2.queue k with
  | some item =>
      (acc.1 ++ [item],
       { acc.2 with queue := mdelete acc.2.queue k,
                    processing := mset acc.2.processing k item })
  | none => acc

/-- `dequeue(batchSize)` (message-queue.ts lines 81-107): non-retry keys
first up to `batchSize`, then retry keys into the remaining capacity; each
selected key's item moves from pending to processing. -/
def dequeue (st : QState) (batchSize : Nat) : List QueueItem × QState :=
  let keys := st.queue.map Prod.fst
  let priorityKeys := (keys.filter (fun k => freshKey st.queue k)).take batchSize
  let retryKeys := (keys.filter (fun k => !(freshKey st.queue k))).take (batchSize - priorityKeys.length)
  let batchKeys := priorityKeys ++ retryKeys
  batchKeys.foldl dequeueStep ([], st)

/-- `requeue(items)` (message-queue.ts lines 109-121): delete each item's key
from processing, then enqueue it again with lane `retry` (the spread keeps
the item's retry count; `(item.retryCount || 0)` is the `Nat` field itself). -/
def requeue (now : String) (st : QState) (items : List QueueItem) : QState :=
  items.foldl
    (fun st item =>
      let st1 := { st with processing := mdelete st.processing (itemKey item) }
      enqueue now st1 { item with type := Lane.retry }) st

/-- `size()` (message-queue.ts lines 171-173): pending + processing + retrying. -/
def qsize (st : QState) : Nat :=
  st.queue.length + st.processing.length + st.retrying.length

/-- `getStatus()` lane counts, in the order pending, processing, failed,
retrying. -/
def getStatus (st : QState) : Nat × Nat × Nat × Nat :=
  (st.queue.length, st.processing.length, st.failed.length, st.retrying.length)

/-- `removeFromProcessing(key)` (message-queue.ts lines 199-201). -/
def removeFromProcessing (st : QState) (k : Key) : QState :=
  { st with processing := mdelete st.processing k }

/-- `clear()` (message-queue.ts lines 164-169). -/
def clearQueue (st : QState) : QState :=
  { st with queue := [], processing := [], failed := [], retrying := [] }

/-! The sync orchestrator (src/src/server/matrix/sync.ts, class SyncManager).
The Crypto Provider's `decryptEvent` is an external call; its outcome at a
given event is a parameter: a decrypted content, a falsy (null/undefined)
result, or a thrown error. -/

inductive DecryptResult where
  | ok (content : String)
  | nullish
  | err (msg : String)
deriving DecidableEq

/-- The fields of a timeline event that `processEvent` reads. -/
structure EventInfo where
  eventId : String
  roomId : String
  content : String
  isEncrypted : Bool
deriving DecidableEq

/-- The queue item `processEvent` builds: `{ event, room, type }`, nothing
else (no retry count, no error, no timestamp). -/
def mkItem (ev : EventInfo) (lane : Lane) : QueueItem :=
  { eventId := ev.eventId, roomId := ev.roomId, eventContent := ev.content,
    isEncrypted := ev.isEncrypted, type := lane, retryCount := 0,
    timestamp := none, error := none }

/-- `processEvent(event, room)` (sync.ts lines 215-251): an encrypted event
whose `decryptEvent` call throws is enqueued with lane `retry_decrypt`;
every other outcome falls through to the lane `message` enqueue (a falsy
decrypt result just keeps the raw content). -/
def processEvent (now : String) (st : QState) (ev : EventInfo) (d : DecryptResult) : QState :=
  if ev.isEncrypted then
    match d with
    | DecryptResult.err _ => enqueue now st (mkItem ev Lane.retry_decrypt)
    | _ => enqueue now st (mkItem ev Lane.message)
  else
    enqueue now st (mkItem ev Lane.message)

/-- One step of `processRetryDecryption`'s item loop (sync.ts lines 316-343):
a successful decrypt enqueues a fresh `message` item carrying the decrypted
content; a falsy result re-enqueues the item with its retry count bumped; a
thrown error is caught and logged, leaving the queue state unchanged. -/
def retryDecryptionStep (now : String) (dec : String → DecryptResult)
    (st : QState) (item : QueueItem) : QState :=
  match dec item.eventId with
  | DecryptResult.ok c =>
      enqueue now st
        { eventId := item.eventId, roomId := item.roomId, eventContent := c,
          isEncrypted := item.isEncrypted, type := Lane.message, retryCount := 0,
          timestamp := none, error := none }
  | DecryptResult.nullish =>
      enqueue now st { item with retryCount := item.retryCount + 1 }
  | DecryptResult.err _ => st

/-- `processRetryDecryption(messages)` (sync.ts lines 316-343). -/
def processRetryDecryption (now : String) (dec : String → DecryptResult)
    (st : QState) (items : List QueueItem) : QState :=
  items.foldl (retryDecryptionStep now dec) st

/-- A row of the `messages` table, restricted to the columns the embedding
tracks (the remaining columns — sender, event type, processed_at — are
carried the same way and do not affect keying). -/
structure MessageRow where
  id : String
  room_id : String
  content : String
  encrypted : Bool
deriving DecidableEq

/-- The row `processMessageBatch` formats for a queue item (sync.ts lines
293-302). -/
def formatMessage (item : QueueItem) : MessageRow :=
  { id := item.eventId, room_id := item.roomId, content := item.eventContent,
    encrypted := item.isEncrypted }

/-- Modelled from the spec: the Relational Store's parameterized upsert
(`INSERT ... ON CONFLICT (key) DO UPDATE`, spec section 6) applied to the
`messages` table with conflict key `id`, as invoked by `processMessageBatch`
with `{ onConflict: 'id' }`.  The store client itself is an external
collaborator and is not part of the repository's sources. -/
def upsertRow (store : List MessageRow) (r : MessageRow) : List MessageRow :=
  if store.any (fun x => decide (x.id = r.id)) then
    store.map (fun x => if x.id = r.id then r else x)
  else
    store ++ [r]

def upsertRows (store : List MessageRow) (rows : List MessageRow) : List MessageRow :=
  rows.foldl upsertRow store

/-- How many rows of the store carry a given event id (`SELECT` count used
by the redelivery scenario). -/
def countId (store : List MessageRow) (id : String) : Nat :=
  (store.filter (fun r => decide (r.id = id))).length

/-- `processMessageBatch(messages)` (sync.ts lines 290-314).  `writeOk`
is the outcome of the batched upsert: on success the formatted rows are
upserted into the store; on failure every item of the batch is re-enqueued
with lane `retry` (note: via `enqueue`, not `requeue` — nothing deletes the
items from the processing lane). -/
def processMessageBatch (now : String) (writeOk : Bool) (st : QState)
    (store : List MessageRow) (messages : List QueueItem) : QState × List MessageRow :=
  if messages.isEmpty then (st, store)
  else if writeOk then (st, upsertRows store (messages.map formatMessage))
  else
    (messages.foldl (fun st m => enqueue now st { m with type := Lane.retry }) st, store)

/-- One iteration of the queue-drain loop body shared by
`startMessageQueueProcessor` (sync.ts lines 253-280) and `drainMessageQueue`
(lines 436-449): dequeue a batch, group it by lane, and run the three lane
processors.  `groupMessagesByType` puts `retry`-lane items in a group no
processor reads, and `processErrorMessages` only writes the `sync_errors`
log, so neither touches the queue state. -/
def drainStep (now : String) (batchSize : Nat) (writeOk : Bool)
    (dec : String → DecryptResult) (s : QState × List MessageRow) : QState × List MessageRow :=
  let r := dequeue s.1 batchSize
  if r.1.isEmpty then (r.2, s.2)
  else
    let msgs := r.1.filter (fun it => decide (it.type = Lane.message))
    let rds := r.1.filter (fun it => decide (it.type = Lane.retry_decrypt))
    let s2 := processMessageBatch now writeOk r.2 s.2 msgs
    (processRetryDecryption now dec s2.1 rds, s2.2)

/-- `n` iterations of the drain loop. -/
def drainN (now : String) (batchSize : Nat) (writeOk : Bool)
    (dec : String → DecryptResult) : Nat → QState × List MessageRow → QState × List MessageRow
  | 0, s => s
  | n + 1, s => drainN now batchSize writeOk dec n (drainStep now batchSize writeOk dec s)

/-! Startup (sync.ts `startSync`/`initialSetup`, lines 90-128, and the
`MatrixClient.initialize` variant further down the file).  The externally
visible effects of a `startSync` run are embedded as a trace of actions. -/

/-- A room as the Protocol Client reports it: its id and the user ids of its
joined members (the fields `initialSetup`'s backfill reads). -/
structure RoomInfo where
  roomId : String
  members : List String
deriving DecidableEq

/-- The environment a `startSync` call runs against. -/
structure SyncEnv where
  cryptoInitialized : Bool
  savedToken : Option String
  rooms : List RoomInfo
deriving DecidableEq

/-- The observable steps of a `startSync` run, in program order. -/
inductive SyncAction where
  | upsertRoom (roomId : String)
  | upsertParticipants (roomId : String) (userIds : List String)
  | registerListeners
  | startStream
  | startProcessor
deriving DecidableEq

/-- Batching loop `for (let i = 0; i < l.length; i += n + 1)`: the list cut
into slices of `n + 1` elements. -/
def chunksBy {α : Type} (n : Nat) (l : List α) : List (List α) :=
  match l with
  | [] => []
  | x :: xs => (x :: xs).take (n + 1) :: chunksBy n ((x :: xs).drop (n + 1))
termination_by l.length
decreasing_by
  simp only [List.length_drop, List.length_cons]
  omega

/-- `syncRoom(room)` (sync.ts lines 130-147): one `rooms` upsert. -/
def syncRoomActions (room : RoomInfo) : List SyncAction :=
  [SyncAction.upsertRoom room.roomId]

/-- `syncParticipants(room)` (sync.ts lines 149-172): the joined members in
batches of 100, one `participants` upsert per batch. -/
def syncParticipantsActions (room : RoomInfo) : List SyncAction :=
  (chunksBy 99 room.members).map (fun b => SyncAction.upsertParticipants room.roomId b)

/-- The work `initialSetup` does for one room: `syncRoom` then
`syncParticipants`. -/
def roomSetupActions (room : RoomInfo) : List SyncAction :=
  syncRoomActions room ++ syncParticipantsActions room

/-- `initialSetup()` (sync.ts lines 116-128): all rooms of the client, in
batches of 10. -/
def initialSetupActions (rooms : List RoomInfo) : List SyncAction :=
  (chunksBy 9 rooms).flatMap (fun batch => batch.flatMap roomSetupActions)

/-- The `SyncManager` fields a `startSync` call reads and writes. -/
structure MgrState where
  processingQueue : Bool
  lastSyncToken : Option String
deriving DecidableEq

/-- `startSync()` (sync.ts lines 90-114): require the crypto manager to be
initialized, load the saved token, run `initialSetup`, register the sync
listeners, start the stream, then start the queue processor —
`startMessageQueueProcessor` (line 254) returns at once when the
`processingQueue` flag is already set, and otherwise sets it.  Nothing in
the saved-token branch skips `initialSetup`. -/
def startSyncRun (env : SyncEnv) (ms : MgrState) : Except String (MgrState × List SyncAction) :=
  if env.cryptoInitialized = false then
    Except.error "Crypto manager must be initialized before starting sync"
  else
    let ms1 : MgrState := { ms with lastSyncToken := env.savedToken }
    let pre := initialSetupActions env.rooms ++ [SyncAction.registerListeners, SyncAction.startStream]
    if ms1.processingQueue then Except.ok (ms1, pre)
    else Except.ok ({ ms1 with processingQueue := true }, pre ++ [SyncAction.startProcessor])

/-- The action trace of a `startSync` run, or `[]` when the run failed its
precondition. -/
def startSyncActions (env : SyncEnv) (ms : MgrState) : List SyncAction :=
  match startSyncRun env ms with
  | Except.ok r => r.2
  | Except.error _ => []

/-- The manager state after a `startSync` run (unchanged on precondition
failure). -/
def startSyncState (env : SyncEnv) (ms : MgrState) : MgrState :=
  match startSyncRun env ms with
  | Except.ok r => r.1
  | Except.error _ => ms

/-- The `MatrixClient` fields its `initialize` method reads and writes
(sync.ts, second class in the file, lines 731-763). -/
structure CState where
  isInitialized : Bool
deriving DecidableEq

/-- `MatrixClient.initialize()`: when `isInitialized` is already set, log and
return without running the body; otherwise run the body (login, crypto
setup, sync-data load, resume or fresh sync) and set the flag at the end.
The returned `Bool` records whether the body ran. -/
def initializeClient (st : CState) : CState × Bool :=
  if st.isInitialized then (st, false)
  else ({ isInitialized := true }, true)

/-- The participant rows a trace upserts for a given room: the
concatenation of every `upsertParticipants` batch targeting that room. -/
def participantsUpserted (rid : String) (acts : List SyncAction) : List String :=
  (acts.filterMap (fun a => match a with
    | SyncAction.upsertParticipants rid2 us => if rid2 = rid then some us else none
    | _ => none)).flatMap id

/-! Concrete fixtures used by witnesses and counterexamples. -/

/-- A plain message item for the event `$e1`. -/
def itMsg : QueueItem :=
  ⟨"$e1", "!r1", "hello", false, Lane.message, 0, none, none⟩

/-- The same event delivered again with different (newer) content. -/
def itMsg2 : QueueItem :=
  ⟨"$e1", "!r1", "hello-edited", false, Lane.message, 0, none, none⟩

/-- A retry-lane item for `$e1` with no prior retries. -/
def itRetry : QueueItem :=
  ⟨"$e1", "!r1", "hello", false, Lane.retry, 0, none, none⟩

/-- A retry-lane item for `$e1` that has already been retried 3 times. -/
def itRetry3 : QueueItem :=
  ⟨"$e1", "!r1", "hello", false, Lane.retry, 3, none, none⟩

/-- A retry-decrypt item for the encrypted event `$e2`. -/
def itDec : QueueItem :=
  ⟨"$e2", "!r1", "ciphertext", true, Lane.retry_decrypt, 0, none, none⟩

/-- A state whose processing lane holds `itMsg` under its key, as `dequeue`
leaves it. -/
def procSt : QState :=
  ⟨[], [(("$e1", Lane.message), itMsg)], [], [], []⟩

/-- Pending lane holding one retry-flagged item and two fresh items, in that
insertion order. -/
def mixSt : QState :=
  ⟨[(("$a", Lane.retry), ⟨"$a", "!r1", "x", false, Lane.retry, 2, none, none⟩),
    (("$b", Lane.message), ⟨"$b", "!r1", "y", false, Lane.message, 0, none, none⟩),
    (("$c", Lane.message), ⟨"$c", "!r1", "z", false, Lane.message, 0, none, none⟩)],
   [], [], [], []⟩

/-- The state after `itMsg` is enqueued into an empty queue. -/
def oneMsgSt : QState := enqueue "t0" QState.empty itMsg

/-- The timeline event behind `itMsg`. -/
def evPlain : EventInfo := ⟨"$e1", "!r1", "hello", false⟩

/-- An encrypted timeline event. -/
def evEnc : EventInfo := ⟨"$e2", "!r1", "ciphertext", true⟩

/-- An environment with a persisted checkpoint token and one known room. -/
def envSaved : SyncEnv := ⟨true, some "s72_token", [⟨"!r1", ["@u1", "@u2"]⟩]⟩

/-- A decrypt oracle that fails on every event. -/
def decFail : String → DecryptResult := fun _ => DecryptResult.err "DecryptionError"

/-- A decrypt oracle that succeeds on every event with plaintext `p`. -/
def decOk : String → DecryptResult := fun _ => DecryptResult.ok "p"

/-! Association-list lemmas: how `mget`/`mhas` interact with `mset` and
`mdelete` (the JS `Map` operations). -/

theorem mget_eq_none_of_mhas {K V : Type} [DecidableEq K] (m : List (K × V)) (k : K)
    (h : mhas m k = false) : mget m k = none := by
  unfold mhas at h
  exact Option.not_isSome_iff_eq_none.mp (by simp [h])

theorem mget_append_left {K V : Type} [DecidableEq K] (a b : List (K × V)) (k : K)
    (h : mget a k = none) : mget (a ++ b) k = mget b k := by
  induction a with
  | nil => simp
  | cons p rest ih =>
      by_cases hp : p.1 = k
      · simp [mget, hp] at h
      · simp only [mget, if_neg hp, List.cons_append] at *
        exact ih h

theorem mget_map_replace {K V : Type} [DecidableEq K] (m : List (K × V)) (k : K) (v : V)
    (h : mhas m k = true) :
    mget (m.map (fun p => if p.1 = k then (k, v) else p)) k = some v := by
  induction m with
  | nil => simp [mhas, mget] at h
  | cons p rest ih =>
      by_cases hp : p.1 = k
      · simp [mget, hp]
      · have hrest : mhas rest k = true := by
          simp only [mhas, mget, if_neg hp] at h
          exact h
        simp only [List.map_cons, if_neg hp, mget]
        exact ih hrest

theorem mget_map_replace_ne {K V : Type} [DecidableEq K] (m : List (K × V)) (k j : K) (v : V)
    (h : j ≠ k) :
    mget (m.map (fun p => if p.1 = k then (k, v) else p)) j = mget m j := by
  induction m with
  | nil => rfl
  | cons p rest ih =>
      by_cases hp : p.1 = k
      · have hkj : ¬ (k = j) := fun hh => h hh.symm
        have hpj : ¬ (p.1 = j) := by rw [hp]; exact hkj
        simp [mget, hp, hkj, hpj, ih]
      · by_cases hpj : p.1 = j
        · simp only [List.map_cons, if_neg hp, mget, if_pos hpj]
        · simp only [List.map_cons, if_neg hp, mget, if_neg hpj]
          exact ih

theorem mget_append_single_ne {K V : Type} [DecidableEq K] (m : List (K × V)) (k j : K) (v : V)
    (h : j ≠ k) : mget (m ++ [(k, v)]) j = mget m j := by
  induction m with
  | nil =>
      have : ¬ (k = j) := fun hh => h hh.symm
      simp [mget, this]
  | cons p rest ih =>
      by_cases hpj : p.1 = j <;> simp [mget, hpj, ih]

theorem mget_mset_self {K V : Type} [DecidableEq K] (m : List (K × V)) (k : K) (v : V) :
    mget (mset m k v) k = some v := by
  unfold mset
  by_cases h : mhas m k = true
  · rw [if_pos (by simp [h])]
    exact mget_map_replace m k v h
  · have h0 : mhas m k = false := by simpa using h
    rw [if_neg (by simp [h0])]
    rw [mget_append_left m [(k, v)] k (mget_eq_none_of_mhas m k h0)]
    simp [mget]

theorem mhas_mset_self {K V : Type} [DecidableEq K] (m : List (K × V)) (k : K) (v : V) :
    mhas (mset m k v) k = true := by
  simp [mhas, mget_mset_self]

theorem mget_mset_ne {K V : Type} [DecidableEq K] (m : List (K × V)) (k j : K) (v : V)
    (h : j ≠ k) : mget (mset m k v) j = mget m j := by
  unfold mset
  by_cases hm : mhas m k = true
  · rw [if_pos (by simp [hm])]
    exact mget_map_replace_ne m k j v h
  · rw [if_neg (by simp [hm])]
    exact mget_append_single_ne m k j v h

theorem mhas_mset_of {K V : Type} [DecidableEq K] (m : List (K × V)) (k j : K) (v : V)
    (h : mhas m j = true) : mhas (mset m k v) j = true := by
  by_cases hj : j = k
  · rw [hj]; exact mhas_mset_self m k v
  · unfold mhas
    rw [mget_mset_ne m k j v hj]
    exact h

theorem length_mset_ge {K V : Type} [DecidableEq K] (m : List (K × V)) (k : K) (v : V) :
    m.length ≤ (mset m k v).length := by
  unfold mset
  by_cases hm : mhas m k = true <;> simp [hm]

theorem length_mset_pos {K V : Type} [DecidableEq K] (m : List (K × V)) (k : K) (v : V) :
    0 < (mset m k v).length := by
  cases m with
  | nil => simp [mset, mhas, mget]
  | cons p rest =>
      exact Nat.lt_of_lt_of_le (Nat.succ_pos rest.length) (length_mset_ge (p :: rest) k v)

theorem mget_mdelete_self {K V : Type} [DecidableEq K] (m : List (K × V)) (k : K) :
    mget (mdelete m k) k = none := by
  induction m with
  | nil => rfl
  | cons p rest ih =>
      by_cases hp : p.1 = k
      · simpa [mdelete, List.filter_cons, hp] using ih
      · simpa [mdelete, List.filter_cons, hp, mget] using ih

theorem mhas_mdelete_self {K V : Type} [DecidableEq K] (m : List (K × V)) (k : K) :
    mhas (mdelete m k) k = false := by
  simp [mhas, mget_mdelete_self]

theorem mget_mdelete_ne {K V : Type} [DecidableEq K] (m : List (K × V)) (k j : K)
    (h : j ≠ k) : mget (mdelete m k) j = mget m j := by
  induction m with
  | nil => rfl
  | cons p rest ih =>
      unfold mdelete at *
      rw [List.filter_cons]
      by_cases hp : p.1 = k
      · have hpj : ¬ (p.1 = j) := by rw [hp]; exact fun hh => h hh.symm
        rw [if_neg (by simp [hp])]
        rw [ih]
        simp [mget, hpj]
      · rw [if_pos (by simp [hp])]
        by_cases hpj : p.1 = j
        · simp [mget, hpj]
        · simp only [mget, if_neg hpj]
          simpa using ih

/-! Facts about `stamp` and the branch shape of `enqueue`. -/

theorem stamp_type (now : String) (item : QueueItem) : (stamp now item).type = item.type := by
  unfold stamp; split <;> rfl

theorem stamp_retryCount (now : String) (item : QueueItem) :
    (stamp now item).retryCount = item.retryCount := by
  unfold stamp; split <;> rfl

theorem itemKey_stamp (now : String) (item : QueueItem) :
    itemKey (stamp now item) = itemKey item := by
  unfold stamp itemKey; split <;> rfl

theorem enqueue_of_processing (now : String) (st : QState) (item : QueueItem)
    (h : mhas st.processing (itemKey item) = true) : enqueue now st item = st := by
  unfold enqueue
  simp [h]

theorem enqueue_processing_eq (now : String) (st : QState) (item : QueueItem) :
    (enqueue now st item).processing = st.processing := by
  unfold enqueue
  by_cases h : mhas st.processing (itemKey item) = true
  · simp [h]
  · simp only [Bool.not_eq_true] at h
    simp only [h, Bool.false_eq_true, if_false]
    split
    · split <;> rfl
    · rfl

theorem enqueue_retry_le (now : String) (st : QState) (item : QueueItem)
    (hproc : mhas st.processing (itemKey item) = false)
    (htype : item.type = Lane.retry)
    (hle : item.retryCount + 1 ≤ maxRetries) :
    enqueue now st item =
      { st with
          retrying := mset st.retrying (itemKey item)
            { stamp now item with retryCount := item.retryCount + 1 },
          timers := st.timers ++
            [(retryDelay (item.retryCount + 1), itemKey item,
              { stamp now item with retryCount := item.retryCount + 1 })] } := by
  unfold enqueue
  simp [hproc, stamp_type, htype, stamp_retryCount, hle]

theorem enqueue_retry_gt (now : String) (st : QState) (item : QueueItem)
    (hproc : mhas st.processing (itemKey item) = false)
    (htype : item.type = Lane.retry)
    (hgt : maxRetries < item.retryCount + 1) :
    enqueue now st item =
      { st with failed := mset st.failed (itemKey item) (stamp now item) } := by
  unfold enqueue
  simp [hproc, stamp_type, htype, stamp_retryCount, Nat.not_le.mpr hgt]

theorem enqueue_nonretry (now : String) (st : QState) (item : QueueItem)
    (hproc : mhas st.processing (itemKey item) = false)
    (htype : item.type ≠ Lane.retry) :
    enqueue now st item =
      { st with queue := mset st.queue (itemKey item) (stamp now item) } := by
  unfold enqueue
  simp [hproc, stamp_type, htype]

/-! The backoff schedule. -/

theorem retryDelays_getD_mono (i j : Nat) (hij : i ≤ j) (hj : j ≤ 2) :
    retryDelays.getD i 0 ≤ retryDelays.getD j 0 := by
  interval_cases j <;> interval_cases i <;> decide

theorem retryDelay_mono (a b : Nat) (h : a ≤ b) : retryDelay a ≤ retryDelay b := by
  unfold retryDelay
  exact retryDelays_getD_mono _ _
    (min_le_min (Nat.sub_le_sub_right h 1) le_rfl)
    (Nat.min_le_right _ _)

theorem retryDelay_stable (a : Nat) (h : retryDelays.length ≤ a) :
    retryDelay a = retryDelays.getLastD 0 := by
  unfold retryDelay
  rw [Nat.min_eq_right (Nat.sub_le_sub_right h 1)]
  decide

/-- C3: enqueuing an item with lane `retry` increments its retry count; when
the incremented count exceeds `maxRetries = 3` the item lands in the failed
lane — the pending lane is untouched and the key is not in retrying —
otherwise the item is parked in `retrying` with its count incremented and a
timer scheduled with delay `retryDelay (count + 1)` drawn from the schedule
`[1000, 5000, 30000]`, and firing that timer re-enters the item into the
pending lane; the delay schedule is non-decreasing in the retry count and
its last value repeats for counts beyond the schedule length. -/
theorem C3_retry_backoff (now : String) (st : QState) (item : QueueItem)
    (htype : item.type = Lane.retry)
    (hproc : mhas st.processing (itemKey item) = false)
    (hretr : mhas st.retrying (itemKey item) = false) :
    (maxRetries < item.retryCount + 1 →
       mhas (enqueue now st item).failed (itemKey item) = true ∧
       (enqueue now st item).queue = st.queue ∧
       mhas (enqueue now st item).retrying (itemKey item) = false) ∧
    (item.retryCount + 1 ≤ maxRetries →
       (enqueue now st item).queue = st.queue ∧
       ∃ it2, mget (enqueue now st item).retrying (itemKey item) = some it2 ∧
         it2.retryCount = item.retryCount + 1 ∧
         (enqueue now st item).timers =
           st.timers ++ [(retryDelay (item.retryCount + 1), itemKey item, it2)] ∧
         mhas (fireTimer (enqueue now st item) (itemKey item) it2).queue (itemKey item) = true) ∧
    (∀ a b : Nat, a ≤ b → retryDelay a ≤ retryDelay b) ∧
    (∀ a : Nat, retryDelays.length ≤ a → retryDelay a = retryDelays.getLastD 0) := by
  refine ⟨?_, ?_, retryDelay_mono, retryDelay_stable⟩
  · intro hgt
    rw [enqueue_retry_gt now st item hproc htype hgt]
    exact ⟨mhas_mset_self _ _ _, rfl, hretr⟩
  · intro hle
    rw [enqueue_retry_le now st item hproc htype hle]
    refine ⟨rfl, { stamp now item with retryCount := item.retryCount + 1 },
      mget_mset_self _ _ _, rfl, rfl, ?_⟩
    unfold fireTimer
    exact mhas_mset_self _ _ _

/-- Witness for C3 at the concrete retry item `itRetry` over the empty
queue. -/
theorem C3_retry_backoff_witness :
    itRetry.type = Lane.retry ∧
    mhas QState.empty.processing (itemKey itRetry) = false ∧
    ((maxRetries < itRetry.retryCount + 1 →
        mhas (enqueue "t0" QState.empty itRetry).failed (itemKey itRetry) = true ∧
        (enqueue "t0" QState.empty itRetry).queue = QState.empty.queue ∧
        mhas (enqueue "t0" QState.empty itRetry).retrying (itemKey itRetry) = false) ∧
     (itRetry.retryCount + 1 ≤ maxRetries →
        (enqueue "t0" QState.empty itRetry).queue = QState.empty.queue ∧
        ∃ it2, mget (enqueue "t0" QState.empty itRetry).retrying (itemKey itRetry) = some it2 ∧
          it2.retryCount = itRetry.retryCount + 1 ∧
          (enqueue "t0" QState.empty itRetry).timers =
            QState.empty.timers ++ [(retryDelay (itRetry.retryCount + 1), itemKey itRetry, it2)] ∧
          mhas (fireTimer (enqueue "t0" QState.empty itRetry) (itemKey itRetry) it2).queue
            (itemKey itRetry) = true) ∧
     (∀ a b : Nat, a ≤ b → retryDelay a ≤ retryDelay b) ∧
     (∀ a : Nat, retryDelays.length ≤ a → retryDelay a = retryDelays.getLastD 0)) :=
  ⟨rfl, by decide, C3_retry_backoff "t0" QState.empty itRetry rfl (by decide) (by decide)⟩

/-- C4: enqueuing an item whose key is currently in the processing lane
leaves the entire queue state unchanged, and doing it twice leaves the
queue size unchanged. -/
theorem C4_enqueue_dedup (now1 now2 : String) (st : QState) (item : QueueItem)
    (h : mhas st.processing (itemKey item) = true) :
    enqueue now1 st item = st ∧
    qsize (enqueue now2 (enqueue now1 st item) item) = qsize st := by
  have h1 := enqueue_of_processing now1 st item h
  refine ⟨h1, ?_⟩
  rw [h1, enqueue_of_processing now2 st item h]

/-- Witness for C4 at the concrete state `procSt`, whose processing lane
holds `itMsg` under its key. -/
theorem C4_enqueue_dedup_witness :
    mhas procSt.processing (itemKey itMsg) = true ∧
    (enqueue "t1" procSt itMsg = procSt ∧
     qsize (enqueue "t2" (enqueue "t1" procSt itMsg) itMsg) = qsize procSt) :=
  ⟨by decide, C4_enqueue_dedup "t1" "t2" procSt itMsg (by decide)⟩

/-! Lemmas on the key loop of `dequeue`. -/

theorem mget_isSome_of_mem_keys {K V : Type} [DecidableEq K] (m : List (K × V)) (k : K)
    (h : k ∈ m.map Prod.fst) : (mget m k).isSome = true := by
  induction m with
  | nil => simp at h
  | cons p rest ih =>
      rw [List.map_cons] at h
      by_cases hp : p.1 = k
      · simp [mget, hp]
      · rcases List.mem_cons.mp h with hh | hh
        · exact absurd hh.symm hp
        · simp only [mget, if_neg hp]
          exact ih hh

theorem mem_of_mget {K V : Type} [DecidableEq K] (m : List (K × V)) (k : K) (v : V)
    (h : mget m k = some v) : (k, v) ∈ m := by
  induction m with
  | nil => simp [mget] at h
  | cons p rest ih =>
      by_cases hp : p.1 = k
      · simp only [mget, if_pos hp, Option.some_inj] at h
        have : p = (k, v) := by
          cases p
          simp_all
        rw [← this]
        exact List.mem_cons_self p rest
      · simp only [mget, if_neg hp] at h
        exact List.mem_cons_of_mem p (ih h)

theorem mhas_mdelete_of_false {K V : Type} [DecidableEq K] (m : List (K × V)) (k j : K)
    (h : mhas m j = false) : mhas (mdelete m k) j = false := by
  by_cases hj : j = k
  · rw [hj]; exact mhas_mdelete_self m k
  · unfold mhas
    rw [mget_mdelete_ne m k j hj]
    exact h

theorem keys_filter_mget {K V : Type} [DecidableEq K] (q : List (K × V)) (f : Option V → Bool)
    (hnd : (q.map Prod.fst).Nodup) :
    (q.map Prod.fst).filter (fun k => f (mget q k)) =
      (q.filter (fun p => f (some p.2))).map Prod.fst := by
  induction q with
  | nil => rfl
  | cons p rest ih =>
      simp only [List.map_cons, List.nodup_cons] at hnd
      obtain ⟨hnp, hnd⟩ := hnd
      have hhead : mget (p :: rest) p.1 = some p.2 := by simp [mget]
      have htail : (rest.map Prod.fst).filter (fun k => f (mget (p :: rest) k)) =
          (rest.map Prod.fst).filter (fun k => f (mget rest k)) := by
        apply List.filter_congr
        intro k hk
        have hpk : ¬ (p.1 = k) := fun hh => hnp (hh ▸ hk)
        simp [mget, hpk]
      rw [List.map_cons, List.filter_cons, List.filter_cons, hhead, htail, ih hnd]
      by_cases hf : f (some p.2) = true
      · rw [if_pos hf, if_pos hf, List.map_cons]
      · rw [if_neg hf, if_neg hf]

theorem foldl_dequeueStep_spec (q0 : List (Key × QueueItem)) (ks : List Key)
    (acc : List QueueItem × QState) (hnd : ks.Nodup)
    (heq : ∀ k ∈ ks, mget acc.2.queue k = mget q0 k)
    (hsome : ∀ k ∈ ks, (mget q0 k).isSome = true) :
    (∃ vs, (ks.foldl dequeueStep acc).1 = acc.1 ++ vs ∧
       List.Forall₂ (fun k v => mget q0 k = some v) ks vs) ∧
    (∀ j, j ∉ ks → mget (ks.foldl dequeueStep acc).2.queue j = mget acc.2.queue j) := by
  induction ks generalizing acc with
  | nil => exact ⟨⟨[], by simp, List.Forall₂.nil⟩, fun j _ => rfl⟩
  | cons k ks ih =>
      have hq0 : (mget q0 k).isSome = true := hsome k (List.mem_cons_self k ks)
      obtain ⟨v, hv⟩ := Option.isSome_iff_exists.mp hq0
      have hacc : mget acc.2.queue k = some v := by
        rw [heq k (List.mem_cons_self k ks)]; exact hv
      have hstep : dequeueStep acc k =
          (acc.1 ++ [v],
           { acc.2 with queue := mdelete acc.2.queue k,
                        processing := mset acc.2.processing k v }) := by
        unfold dequeueStep
        rw [hacc]
      have hknotmem : k ∉ ks := (List.nodup_cons.mp hnd).1
      have hnd' : ks.Nodup := (List.nodup_cons.mp hnd).2
      have heq' : ∀ j ∈ ks, mget (mdelete acc.2.queue k) j = mget q0 j := by
        intro j hj
        have hjk : j ≠ k := fun hh => hknotmem (hh ▸ hj)
        rw [mget_mdelete_ne acc.2.queue k j hjk]
        exact heq j (List.mem_cons_of_mem k hj)
      have hsome' : ∀ j ∈ ks, (mget q0 j).isSome = true :=
        fun j hj => hsome j (List.mem_cons_of_mem k hj)
      obtain ⟨⟨vs, hvs1, hvs2⟩, hpres⟩ :=
        ih (acc.1 ++ [v],
            { acc.2 with queue := mdelete acc.2.queue k,
                         processing := mset acc.2.processing k v }) hnd' heq' hsome'

      constructor
      · refine ⟨v :: vs, ?_, List.Forall₂.cons hv hvs2⟩
        rw [List.foldl_cons, hstep]
        simpa [List.append_assoc] using hvs1
      · intro j hj
        have hjk : j ≠ k := fun hh => hj (hh ▸ List.mem_cons_self k ks)
        have hjks : j ∉ ks := fun hh => hj (List.mem_cons_of_mem k hh)
        rw [List.foldl_cons, hstep]
        rw [hpres j hjks]
        exact mget_mdelete_ne acc.2.queue k j hjk

theorem foldl_dequeueStep_moved (ks : List Key) (acc : List QueueItem × QState)
    (hkc : ∀ p ∈ acc.2.queue, p.1 = itemKey p.2)
    (hinv : ∀ it ∈ acc.1,
      mhas acc.2.queue (itemKey it) = false ∧ mhas acc.2.processing (itemKey it) = true) :
    ∀ it ∈ (ks.foldl dequeueStep acc).1,
      mhas (ks.foldl dequeueStep acc).2.queue (itemKey it) = false ∧
      mhas (ks.foldl dequeueStep acc).2.processing (itemKey it) = true := by
  induction ks generalizing acc with
  | nil => simpa using hinv
  | cons k ks ih =>
      rw [List.foldl_cons]
      cases hv : mget acc.2.queue k with
      | none =>
          have hstep : dequeueStep acc k = acc := by
            unfold dequeueStep
            rw [hv]
          rw [hstep]
          exact ih acc hkc hinv
      | some v =>
          have hkv : k = itemKey v := by
            have hmem := mem_of_mget acc.2.queue k v hv
            simpa using hkc (k, v) hmem
          have hstep : dequeueStep acc k =
              (acc.1 ++ [v],
               { acc.2 with queue := mdelete acc.2.queue k,
                            processing := mset acc.2.processing k v }) := by
            unfold dequeueStep
            rw [hv]
          rw [hstep]
          apply ih
          · intro p hp
            exact hkc p (List.mem_of_mem_filter hp)
          · intro it hit
            rcases List.mem_append.mp hit with h | h
            · obtain ⟨h1, h2⟩ := hinv it h
              exact ⟨mhas_mdelete_of_false acc.2.queue k (itemKey it) h1,
                     mhas_mset_of acc.2.processing k (itemKey it) v h2⟩
            · have hitv : it = v := by simpa using h
              rw [hitv, ← hkv]
              exact ⟨mhas_mdelete_self acc.2.queue k, mhas_mset_self acc.2.processing k v⟩

theorem forall2_mget_fresh (q : List (Key × QueueItem)) (b : Bool)
    (ks : List Key) (vs : List QueueItem)
    (h : List.Forall₂ (fun k v => mget q k = some v) ks vs)
    (hf : ∀ k ∈ ks, freshKey q k = b) :
    ∀ v ∈ vs, decide (v.retryCount = 0) = b := by
  induction h with
  | nil => intro v hv; simp at hv
  | @cons k v ks vs hkv hrest ih =>
      intro w hw
      rcases List.mem_cons.mp hw with hwv | hw
      · have hb := hf k (List.mem_cons_self k ks)
        unfold freshKey at hb
        rw [hkv] at hb
        rw [hwv]
        simpa using hb
      · exact ih (fun k2 hk2 => hf k2 (List.mem_cons_of_mem k hk2)) w hw

theorem forall2_append_split {R : Key → QueueItem → Prop} (ks1 ks2 : List Key)
    (vs : List QueueItem) (h : List.Forall₂ R (ks1 ++ ks2) vs) :
    ∃ a b, vs = a ++ b ∧ List.Forall₂ R ks1 a ∧ List.Forall₂ R ks2 b := by
  induction ks1 generalizing vs with
  | nil => exact ⟨[], vs, rfl, List.Forall₂.nil, h⟩
  | cons k ks ih =>
      cases h with
      | cons hkv hrest =>
          obtain ⟨a, b, hab, h1, h2⟩ := ih _ hrest
          exact ⟨_ :: a, b, by rw [hab]; rfl, List.Forall₂.cons hkv h1, h2⟩

/-- C5: `dequeue` returns at most `batchSize` items; the returned batch is a
block of fresh (zero retry count) items followed by a block of retry-flagged
items, the fresh block as large as the fresh pending population allows up to
`batchSize` (so a retry item is only included once every fresh pending item
is); and every returned item's key has left the pending lane and entered the
processing lane. -/
theorem C5_dequeue_priority (st : QState) (batchSize : Nat)
    (hnd : (st.queue.map Prod.fst).Nodup)
    (hkc : ∀ p ∈ st.queue, p.1 = itemKey p.2) :
    (dequeue st batchSize).1.length ≤ batchSize ∧
    (∃ a b, (dequeue st batchSize).1 = a ++ b ∧
       (∀ it ∈ a, it.retryCount = 0) ∧
       (∀ it ∈ b, it.retryCount ≠ 0) ∧
       a.length =
         min batchSize (st.queue.filter (fun p => decide (p.2.retryCount = 0))).length) ∧
    (∀ it ∈ (dequeue st batchSize).1,
       mhas (dequeue st batchSize).2.queue (itemKey it) = false ∧
       mhas (dequeue st batchSize).2.processing (itemKey it) = true) := by
  set keys := st.queue.map Prod.fst with hkeys
  set fk := keys.filter (fun k => freshKey st.queue k) with hfk
  set rk := keys.filter (fun k => !(freshKey st.queue k)) with hrk
  set pk := fk.take batchSize with hpk
  set tk := rk.take (batchSize - pk.length) with htk
  have hdq : dequeue st batchSize = (pk ++ tk).foldl dequeueStep ([], st) := rfl
  have hnd_fk : fk.Nodup := hnd.filter _
  have hnd_rk : rk.Nodup := hnd.filter _
  have hnd_pk : pk.Nodup := (List.take_sublist _ _).nodup hnd_fk
  have hnd_tk : tk.Nodup := (List.take_sublist _ _).nodup hnd_rk
  have hfreshp : ∀ k ∈ pk, freshKey st.queue k = true := by
    intro k hk
    exact List.of_mem_filter (List.take_subset _ _ hk)
  have hfresht : ∀ k ∈ tk, freshKey st.queue k = false := by
    intro k hk
    have := List.of_mem_filter (List.take_subset _ _ hk)
    simpa using this
  have hdisj : pk.Disjoint tk := by
    intro k hk1 hk2
    have h1 := hfreshp k hk1
    have h2 := hfresht k hk2
    rw [h1] at h2
    exact Bool.noConfusion h2
  have hnd_all : (pk ++ tk).Nodup := List.Nodup.append hnd_pk hnd_tk hdisj
  have hmemkeys : ∀ k ∈ pk ++ tk, k ∈ keys := by
    intro k hk
    rcases List.mem_append.mp hk with h | h
    · exact List.mem_of_mem_filter (List.take_subset _ _ h)
    · exact List.mem_of_mem_filter (List.take_subset _ _ h)
  have hsome : ∀ k ∈ pk ++ tk, (mget st.queue k).isSome = true := by
    intro k hk
    exact mget_isSome_of_mem_keys st.queue k (hmemkeys k hk)
  obtain ⟨⟨vs, hvs1, hvs2⟩, _⟩ :=
    foldl_dequeueStep_spec st.queue (pk ++ tk) ([], st) hnd_all
      (fun k _ => rfl) hsome
  have hitems : (dequeue st batchSize).1 = vs := by
    rw [hdq, hvs1]
    simp
  have hfresh_keys :
      (st.queue.map Prod.fst).filter (fun k => freshKey st.queue k) =
        (st.queue.filter (fun p => decide (p.2.retryCount = 0))).map Prod.fst :=
    keys_filter_mget st.queue
      (fun o => match o with | some it => decide (it.retryCount = 0) | none => true) hnd
  have hfk_len : fk.length =
      (st.queue.filter (fun p => decide (p.2.retryCount = 0))).length := by
    rw [hfk, hkeys, hfresh_keys, List.length_map]
  obtain ⟨a, b, hab, h1, h2⟩ := forall2_append_split pk tk vs hvs2
  refine ⟨?_, ⟨a, b, by rw [hitems, hab], ?_, ?_, ?_⟩, ?_⟩
  · rw [hitems, ← hvs2.length_eq]
    have hlp : pk.length ≤ batchSize := by
      rw [hpk]
      exact le_trans (List.length_take_le _ _) le_rfl
    have hlt : tk.length ≤ batchSize - pk.length := by
      rw [htk]
      exact List.length_take_le _ _
    rw [List.length_append]
    omega
  · intro it hit
    have := forall2_mget_fresh st.queue true pk a h1 hfreshp it hit
    exact of_decide_eq_true this
  · intro it hit
    have := forall2_mget_fresh st.queue false tk b h2 hfresht it hit
    exact of_decide_eq_false this
  · rw [← h1.length_eq, hpk, List.length_take, hfk_len]
  · intro it hit
    rw [hdq] at hit ⊢
    exact foldl_dequeueStep_moved (pk ++ tk) ([], st) hkc
      (fun it2 hit2 => absurd hit2 (List.not_mem_nil it2)) it hit

/-- Witness for C5 at the mixed pending state `mixSt` (one retry-flagged
item, two fresh items) with batch size 2. -/
theorem C5_dequeue_priority_witness :
    (mixSt.queue.map Prod.fst).Nodup ∧
    ((dequeue mixSt 2).1.length ≤ 2 ∧
     (∃ a b, (dequeue mixSt 2).1 = a ++ b ∧
        (∀ it ∈ a, it.retryCount = 0) ∧
        (∀ it ∈ b, it.retryCount ≠ 0) ∧
        a.length =
          min 2 (mixSt.queue.filter (fun p => decide (p.2.retryCount = 0))).length) ∧
     (∀ it ∈ (dequeue mixSt 2).1,
        mhas (dequeue mixSt 2).2.queue (itemKey it) = false ∧
        mhas (dequeue mixSt 2).2.processing (itemKey it) = true)) :=
  ⟨by decide, C5_dequeue_priority mixSt 2 (by decide) (by decide)⟩

/-! Lemmas on the batched backfill and the `startSync` trace. -/

theorem chunksBy_flatMap {α β : Type} (n : Nat) (l : List α) (f : α → List β) :
    (chunksBy n l).flatMap (fun batch => batch.flatMap f) = l.flatMap f := by
  induction l using chunksBy.induct n with
  | case1 => rw [chunksBy]; rfl
  | case2 x xs ih =>
      rw [chunksBy]
      conv_lhs => rw [List.flatMap_cons]
      rw [ih, ← List.flatMap_append, List.take_append_drop]

theorem chunksBy_join {α : Type} (n : Nat) (l : List α) :
    (chunksBy n l).flatMap id = l := by
  induction l using chunksBy.induct n with
  | case1 => rw [chunksBy]; rfl
  | case2 x xs ih =>
      rw [chunksBy]
      conv_lhs => rw [List.flatMap_cons]
      rw [ih]
      simp only [id]
      rw [List.take_append_drop]

theorem chunksBy_flatten {α : Type} (n : Nat) (l : List α) :
    (chunksBy n l).flatten = l := by
  have h := chunksBy_join n l
  simpa using h

theorem initialSetupActions_eq (rooms : List RoomInfo) :
    initialSetupActions rooms = rooms.flatMap roomSetupActions :=
  chunksBy_flatMap 9 rooms roomSetupActions

theorem mem_roomSetupActions (r : RoomInfo) (a : SyncAction)
    (h : a ∈ roomSetupActions r) :
    a = SyncAction.upsertRoom r.roomId ∨
      ∃ us, a = SyncAction.upsertParticipants r.roomId us := by
  unfold roomSetupActions syncRoomActions syncParticipantsActions at h
  rcases List.mem_append.mp h with h | h
  · left
    simpa using h
  · right
    obtain ⟨b, _, hb⟩ := List.mem_map.mp h
    exact ⟨b, hb.symm⟩

theorem count_upsertRoom_flatMap (rooms : List RoomInfo) (rid : String) :
    (rooms.flatMap roomSetupActions).count (SyncAction.upsertRoom rid) =
      (rooms.filter (fun x => decide (x.roomId = rid))).length := by
  induction rooms with
  | nil => rfl
  | cons r rest ih =>
      rw [List.flatMap_cons, List.count_append, ih]
      have h2 : ((chunksBy 99 r.members).map
          (fun b => SyncAction.upsertParticipants r.roomId b)).count
            (SyncAction.upsertRoom rid) = 0 := by
        rw [List.count_eq_zero]
        intro hmem
        obtain ⟨b, _, hb⟩ := List.mem_map.mp hmem
        exact SyncAction.noConfusion hb
      have hhead : (roomSetupActions r).count (SyncAction.upsertRoom rid) =
          if r.roomId = rid then 1 else 0 := by
        unfold roomSetupActions syncRoomActions syncParticipantsActions
        rw [List.count_append, h2]
        by_cases h : r.roomId = rid
        · rw [if_pos h, h]
          simp
        · rw [if_neg h]
          have hne : SyncAction.upsertRoom rid ∉ [SyncAction.upsertRoom r.roomId] := by
            intro hc
            rcases List.mem_singleton.mp hc with hc2
            injection hc2 with h1
            exact h h1.symm
          rw [List.count_eq_zero.mpr hne]
      rw [hhead, List.filter_cons]
      by_cases h : r.roomId = rid
      · rw [if_pos h, if_pos (by simp [h])]
        simp [Nat.add_comm]
      · rw [if_neg h, if_neg (by simp [h])]
        simp

theorem count_in_setup_zero (rooms : List RoomInfo) (a : SyncAction)
    (hnr : ∀ rid, a ≠ SyncAction.upsertRoom rid)
    (hnp : ∀ rid us, a ≠ SyncAction.upsertParticipants rid us) :
    (initialSetupActions rooms).count a = 0 := by
  rw [initialSetupActions_eq, List.count_eq_zero]
  intro hmem
  obtain ⟨r, _, hr⟩ := List.mem_flatMap.mp hmem
  rcases mem_roomSetupActions r a hr with h | ⟨us, h⟩
  · exact hnr r.roomId h
  · exact hnp r.roomId us h

theorem filter_roomId_eq (rooms : List RoomInfo)
    (hnd : (rooms.map RoomInfo.roomId).Nodup) (r : RoomInfo) (hr : r ∈ rooms) :
    rooms.filter (fun x => decide (x.roomId = r.roomId)) = [r] := by
  induction rooms with
  | nil => simp at hr
  | cons q rest ih =>
      rw [List.map_cons, List.nodup_cons] at hnd
      obtain ⟨hq, hnd⟩ := hnd
      rw [List.filter_cons]
      rcases List.mem_cons.mp hr with hh | hh
      · subst hh
        rw [if_pos (by simp)]
        have hnil : rest.filter (fun x => decide (x.roomId = r.roomId)) = [] := by
          rw [List.filter_eq_nil_iff]
          intro x hx
          simp only [decide_eq_true_eq]
          intro hxr
          exact hq (hxr ▸ List.mem_map_of_mem RoomInfo.roomId hx)
        rw [hnil]
      · have hqr : ¬ (q.roomId = r.roomId) := by
          intro hc
          exact hq (hc ▸ List.mem_map_of_mem RoomInfo.roomId hh)
        rw [if_neg (by simp [hqr])]
        exact ih hnd hh

theorem participantsUpserted_append (rid : String) (acts1 acts2 : List SyncAction) :
    participantsUpserted rid (acts1 ++ acts2) =
      participantsUpserted rid acts1 ++ participantsUpserted rid acts2 := by
  unfold participantsUpserted
  rw [List.filterMap_append, List.flatMap_append]

theorem participantsUpserted_roomSetup (q : RoomInfo) (rid : String) :
    participantsUpserted rid (roomSetupActions q) =
      if q.roomId = rid then q.members else [] := by
  unfold participantsUpserted roomSetupActions syncRoomActions syncParticipantsActions
  rw [List.filterMap_append, List.filterMap_map]
  by_cases h : q.roomId = rid
  · rw [if_pos h]
    have hfun : ∀ b ∈ chunksBy 99 q.members,
        ((fun a => match a with
          | SyncAction.upsertParticipants rid2 us => if rid2 = rid then some us else none
          | _ => none) ∘ (fun b => SyncAction.upsertParticipants q.roomId b)) b = some b := by
      intro b _
      simp [Function.comp, h]
    rw [List.filterMap_congr hfun]
    simp [chunksBy_flatten]
  · rw [if_neg h]
    have hfun : ∀ b ∈ chunksBy 99 q.members,
        ((fun a => match a with
          | SyncAction.upsertParticipants rid2 us => if rid2 = rid then some us else none
          | _ => none) ∘ (fun b => SyncAction.upsertParticipants q.roomId b)) b =
          (none : Option (List String)) := by
      intro b _
      simp [Function.comp, h]
    rw [List.filterMap_congr hfun]
    simp

theorem participantsUpserted_rooms (rooms : List RoomInfo) (rid : String) :
    participantsUpserted rid (rooms.flatMap roomSetupActions) =
      (rooms.filter (fun x => decide (x.roomId = rid))).flatMap RoomInfo.members := by
  induction rooms with
  | nil => rfl
  | cons q rest ih =>
      rw [List.flatMap_cons, participantsUpserted_append, ih,
        participantsUpserted_roomSetup, List.filter_cons]
      by_cases h : q.roomId = rid
      · rw [if_pos h, if_pos (by simp [h]), List.flatMap_cons]
      · rw [if_neg h, if_neg (by simp [h])]
        simp

theorem startSyncActions_eq (env : SyncEnv) (ms : MgrState)
    (hcrypto : env.cryptoInitialized = true) :
    startSyncActions env ms =
      initialSetupActions env.rooms ++
        (SyncAction.registerListeners :: SyncAction.startStream ::
          (if ms.processingQueue then [] else [SyncAction.startProcessor])) := by
  unfold startSyncActions startSyncRun
  rw [hcrypto]
  by_cases h : ms.processingQueue <;> simp [h]

theorem startSyncRun_ok (env : SyncEnv) (ms : MgrState)
    (hcrypto : env.cryptoInitialized = true) :
    startSyncRun env ms = Except.ok (startSyncState env ms, startSyncActions env ms) := by
  unfold startSyncState startSyncActions startSyncRun
  rw [hcrypto]
  by_cases h : ms.processingQueue <;> simp [h]

/-- C1 counterexample: in the environment `envSaved` a checkpoint token is
persisted, yet `startSync` still performs a backfill Room upsert for room
`!r1` (count 1, not the claimed 0). -/
theorem C1_checkpoint_skip_counterexample :
    envSaved.savedToken.isSome = true ∧
    (startSyncActions envSaved ⟨false, none⟩).count (SyncAction.upsertRoom "!r1") = 1 := by
  refine ⟨rfl, ?_⟩
  rw [startSyncActions_eq envSaved ⟨false, none⟩ rfl, List.count_append,
    initialSetupActions_eq, count_upsertRoom_flatMap]
  decide

/-- C1 amended: `startSync` loads the checkpoint token but runs the full
backfill unconditionally — exactly one Room upsert per known room and
exactly that room's members as Participant upserts — and every backfill
action precedes the listener registration, the stream start and the
processor start, whether or not a token is persisted. -/
theorem C1_start_backfill (env : SyncEnv) (ms : MgrState)
    (hcrypto : env.cryptoInitialized = true)
    (hnd : (env.rooms.map RoomInfo.roomId).Nodup) :
    startSyncRun env ms = Except.ok (startSyncState env ms, startSyncActions env ms) ∧
    (∃ tail, startSyncActions env ms =
        env.rooms.flatMap roomSetupActions ++
          (SyncAction.registerListeners :: SyncAction.startStream :: tail) ∧
        ∀ a ∈ tail, a = SyncAction.startProcessor) ∧
    (∀ r ∈ env.rooms,
        (startSyncActions env ms).count (SyncAction.upsertRoom r.roomId) = 1 ∧
        participantsUpserted r.roomId (startSyncActions env ms) = r.members) := by
  refine ⟨startSyncRun_ok env ms hcrypto, ?_, ?_⟩
  · refine ⟨if ms.processingQueue then [] else [SyncAction.startProcessor], ?_, ?_⟩
    · rw [startSyncActions_eq env ms hcrypto, initialSetupActions_eq]
    · intro a ha
      by_cases h : ms.processingQueue
      · rw [if_pos h] at ha
        simp at ha
      · rw [if_neg h] at ha
        simpa using ha
  · intro r hr
    constructor
    · rw [startSyncActions_eq env ms hcrypto, List.count_append, initialSetupActions_eq,
        count_upsertRoom_flatMap, filter_roomId_eq env.rooms hnd r hr]
      have htail : (SyncAction.registerListeners :: SyncAction.startStream ::
          (if ms.processingQueue then [] else [SyncAction.startProcessor])).count
            (SyncAction.upsertRoom r.roomId) = 0 := by
        rw [List.count_eq_zero]
        intro hmem
        rcases List.mem_cons.mp hmem with hc | hmem
        · exact SyncAction.noConfusion hc
        rcases List.mem_cons.mp hmem with hc | hmem
        · exact SyncAction.noConfusion hc
        by_cases h : ms.processingQueue
        · rw [if_pos h] at hmem
          simp at hmem
        · rw [if_neg h] at hmem
          rcases List.mem_singleton.mp hmem with hc
          exact SyncAction.noConfusion hc
      rw [htail]
      rfl
    · rw [startSyncActions_eq env ms hcrypto, participantsUpserted_append,
        initialSetupActions_eq, participantsUpserted_rooms,
        filter_roomId_eq env.rooms hnd r hr]
      have htail : participantsUpserted r.roomId
          (SyncAction.registerListeners :: SyncAction.startStream ::
            (if ms.processingQueue then [] else [SyncAction.startProcessor])) = [] := by
        by_cases h : ms.processingQueue <;> simp [participantsUpserted, h]
      rw [htail]
      simp

/-- Witness for the amended C1 at the concrete environment `envSaved`. -/
theorem C1_start_backfill_witness :
    envSaved.cryptoInitialized = true ∧
    (startSyncRun envSaved ⟨false, none⟩ =
        Except.ok (startSyncState envSaved ⟨false, none⟩,
          startSyncActions envSaved ⟨false, none⟩) ∧
     (∃ tail, startSyncActions envSaved ⟨false, none⟩ =
         envSaved.rooms.flatMap roomSetupActions ++
           (SyncAction.registerListeners :: SyncAction.startStream :: tail) ∧
         ∀ a ∈ tail, a = SyncAction.startProcessor) ∧
     (∀ r ∈ envSaved.rooms,
         (startSyncActions envSaved ⟨false, none⟩).count
             (SyncAction.upsertRoom r.roomId) = 1 ∧
         participantsUpserted r.roomId (startSyncActions envSaved ⟨false, none⟩) =
           r.members)) :=
  ⟨rfl, C1_start_backfill envSaved ⟨false, none⟩ rfl (by decide)⟩

/-- C8 counterexample: after a first completed `startSync` run (which sets
`processingQueue`), calling `startSync` again is not a no-op — the second
call performs the Room backfill upsert again and registers a second set of
listeners. -/
theorem C8_idempotence_counterexample :
    (startSyncActions envSaved (startSyncState envSaved ⟨false, none⟩)).count
        SyncAction.registerListeners = 1 ∧
    (startSyncActions envSaved (startSyncState envSaved ⟨false, none⟩)).count
        (SyncAction.upsertRoom "!r1") = 1 := by
  have hms : startSyncState envSaved ⟨false, none⟩ =
      ⟨true, some "s72_token"⟩ := by
    unfold startSyncState startSyncRun
    simp [envSaved]
  rw [hms]
  constructor
  · rw [startSyncActions_eq envSaved ⟨true, some "s72_token"⟩ rfl, List.count_append,
      count_in_setup_zero envSaved.rooms _ (fun rid h => SyncAction.noConfusion h)
        (fun rid us h => SyncAction.noConfusion h)]
    decide
  · rw [startSyncActions_eq envSaved ⟨true, some "s72_token"⟩ rfl, List.count_append,
      initialSetupActions_eq, count_upsertRoom_flatMap]
    decide

/-- C8 amended: the only in-process guards are the `isInitialized` flag of
`MatrixClient.initialize` — a call after a completed initialization is a
no-op — and the `processingQueue` flag, which keeps a repeated `startSync`
from starting a second queue-processor loop; `startSync` itself has no
guard and re-registers listeners on every call. -/
theorem C8_start_guards (env : SyncEnv) (ms : MgrState) (st : CState)
    (hcrypto : env.cryptoInitialized = true)
    (hpq : ms.processingQueue = true) :
    initializeClient (initializeClient st).1 = ((initializeClient st).1, false) ∧
    (st.isInitialized = true → initializeClient st = (st, false)) ∧
    (startSyncActions env ms).count SyncAction.startProcessor = 0 ∧
    (startSyncActions env ms).count SyncAction.registerListeners = 1 := by
  refine ⟨?_, ?_, ?_, ?_⟩
  · unfold initializeClient
    by_cases h : st.isInitialized <;> simp [h]
  · intro h
    unfold initializeClient
    rw [if_pos h]
  · rw [startSyncActions_eq env ms hcrypto, List.count_append, hpq,
      count_in_setup_zero env.rooms _ (fun rid h => SyncAction.noConfusion h)
        (fun rid us h => SyncAction.noConfusion h)]
    decide
  · rw [startSyncActions_eq env ms hcrypto, List.count_append, hpq,
      count_in_setup_zero env.rooms _ (fun rid h => SyncAction.noConfusion h)
        (fun rid us h => SyncAction.noConfusion h)]
    decide

/-- Witness for the amended C8 at a concrete already-running state. -/
theorem C8_start_guards_witness :
    envSaved.cryptoInitialized = true ∧
    (MgrState.mk true (some "tok")).processingQueue = true ∧
    (initializeClient (initializeClient ⟨false⟩).1 = ((initializeClient ⟨false⟩).1, false) ∧
     ((CState.mk false).isInitialized = true → initializeClient ⟨false⟩ = (⟨false⟩, false)) ∧
     (startSyncActions envSaved ⟨true, some "tok"⟩).count SyncAction.startProcessor = 0 ∧
     (startSyncActions envSaved ⟨true, some "tok"⟩).count SyncAction.registerListeners = 1) :=
  ⟨rfl, rfl, C8_start_guards envSaved ⟨true, some "tok"⟩ ⟨false⟩ rfl rfl⟩

/-- C7: an encrypted event whose decrypt call throws during classification is
enqueued with lane `retry_decrypt` — it sits in the pending lane under the
`(id, retry_decrypt)` key, while the `(id, error)` pending entry and the
failed lane are untouched — and a later successful decrypt in
`processRetryDecryption` enqueues it with lane `message`. -/
theorem C7_decrypt_routing (now1 now2 : String) (st st2 : QState) (ev : EventInfo)
    (msg : String) (item : QueueItem) (dec : String → DecryptResult) (c : String)
    (henc : ev.isEncrypted = true)
    (hp1 : mhas st.processing (ev.eventId, Lane.retry_decrypt) = false)
    (htype : item.type = Lane.retry_decrypt)
    (hdec : dec item.eventId = DecryptResult.ok c)
    (hp2 : mhas st2.processing (item.eventId, Lane.message) = false) :
    (mhas (processEvent now1 st ev (DecryptResult.err msg)).queue
        (ev.eventId, Lane.retry_decrypt) = true ∧
     mget (processEvent now1 st ev (DecryptResult.err msg)).queue (ev.eventId, Lane.error) =
       mget st.queue (ev.eventId, Lane.error) ∧
     (processEvent now1 st ev (DecryptResult.err msg)).failed = st.failed) ∧
    mhas (processRetryDecryption now2 dec st2 [item]).queue
        (item.eventId, Lane.message) = true := by
  have hpe : processEvent now1 st ev (DecryptResult.err msg) =
      enqueue now1 st (mkItem ev Lane.retry_decrypt) := by
    unfold processEvent
    rw [henc]
    simp
  have hkey : itemKey (mkItem ev Lane.retry_decrypt) = (ev.eventId, Lane.retry_decrypt) := rfl
  have henq : enqueue now1 st (mkItem ev Lane.retry_decrypt) =
      { st with queue := mset st.queue (ev.eventId, Lane.retry_decrypt) (stamp now1 (mkItem ev Lane.retry_decrypt)) } := by
    have := enqueue_nonretry now1 st (mkItem ev Lane.retry_decrypt)
      (by rw [hkey]; exact hp1) (fun hc => Lane.noConfusion hc)
    rw [this, hkey]
  refine ⟨?_, ?_⟩
  · rw [hpe, henq]
    refine ⟨mhas_mset_self _ _ _, ?_, rfl⟩
    exact mget_mset_ne _ _ _ _ (by simp)
  · have hstep : processRetryDecryption now2 dec st2 [item] =
        enqueue now2 st2
          { eventId := item.eventId, roomId := item.roomId, eventContent := c,
            isEncrypted := item.isEncrypted, type := Lane.message, retryCount := 0,
            timestamp := none, error := none } := by
      unfold processRetryDecryption retryDecryptionStep
      rw [List.foldl_cons, hdec]
      rfl
    rw [hstep]
    have henq2 := enqueue_nonretry now2 st2
      { eventId := item.eventId, roomId := item.roomId, eventContent := c,
        isEncrypted := item.isEncrypted, type := Lane.message, retryCount := 0,
        timestamp := none, error := none } hp2 (fun hc => Lane.noConfusion hc)
    rw [henq2]
    exact mhas_mset_self _ _ _

/-- Witness for C7: the encrypted event `evEnc` with a failing decrypt over
the empty queue, then a successful decrypt of the queued item `itDec`. -/
theorem C7_decrypt_routing_witness :
    evEnc.isEncrypted = true ∧
    itDec.type = Lane.retry_decrypt ∧
    decOk itDec.eventId = DecryptResult.ok "p" ∧
    ((mhas (processEvent "t1" QState.empty evEnc (DecryptResult.err "fail")).queue
        (evEnc.eventId, Lane.retry_decrypt) = true ∧
      mget (processEvent "t1" QState.empty evEnc (DecryptResult.err "fail")).queue
        (evEnc.eventId, Lane.error) = mget QState.empty.queue (evEnc.eventId, Lane.error) ∧
      (processEvent "t1" QState.empty evEnc (DecryptResult.err "fail")).failed =
        QState.empty.failed) ∧
     mhas (processRetryDecryption "t2" decOk QState.empty [itDec]).queue
        (itDec.eventId, Lane.message) = true) :=
  ⟨rfl, rfl, rfl,
    C7_decrypt_routing "t1" "t2" QState.empty QState.empty evEnc "fail" itDec decOk "p"
      rfl (by decide) rfl rfl (by decide)⟩

/-- C6: when the batched message upsert fails, the handler re-enqueues every
batch item with lane `retry` (the retry path applies backoff; nothing goes
directly back to pending), but it calls `enqueue` rather than `requeue`, so
the item's `(id, message)` key is still in the processing lane afterwards —
whereas `requeue` on the same state would have removed it. -/
theorem C6_requeue_divergence :
    ((processMessageBatch "t1" false procSt [] [itMsg]).1.processing = procSt.processing ∧
     mhas (processMessageBatch "t1" false procSt [] [itMsg]).1.processing
        ("$e1", Lane.message) = true ∧
     mhas (processMessageBatch "t1" false procSt [] [itMsg]).1.retrying
        ("$e1", Lane.retry) = true ∧
     mhas (processMessageBatch "t1" false procSt [] [itMsg]).1.queue
        ("$e1", Lane.message) = false ∧
     (processMessageBatch "t1" false procSt [] [itMsg]).2 = []) ∧
    mhas (requeue "t1" procSt [itMsg]).processing ("$e1", Lane.message) = false := by
  decide

/-! Lemmas on the keyed store upsert. -/

theorem filter_map_replace_rows (store : List MessageRow) (r : MessageRow) :
    ((store.map (fun x => if x.id = r.id then r else x)).filter
      (fun x => decide (x.id = r.id))) = List.replicate (countId store r.id) r := by
  induction store with
  | nil => rfl
  | cons x rest ih =>
      unfold countId at *
      rw [List.map_cons, List.filter_cons, List.filter_cons]
      by_cases hx : x.id = r.id
      · rw [if_pos hx, if_pos (by simp), if_pos (by simp [hx]), ih,
          List.length_cons, List.replicate_succ]
      · rw [if_neg hx, if_neg (by simp [hx]), if_neg (by simp [hx])]
        exact ih

theorem countId_pos_of_any (store : List MessageRow) (rid : String)
    (h : store.any (fun x => decide (x.id = rid)) = true) : 0 < countId store rid := by
  obtain ⟨x, hmem, hx⟩ := List.any_eq_true.mp h
  unfold countId
  have : x ∈ store.filter (fun r => decide (r.id = rid)) := List.mem_filter.mpr ⟨hmem, hx⟩
  exact List.length_pos.mpr (List.ne_nil_of_mem this)

theorem upsertRow_filter (store : List MessageRow) (r : MessageRow)
    (h : countId store r.id ≤ 1) :
    (upsertRow store r).filter (fun x => decide (x.id = r.id)) = [r] := by
  unfold upsertRow
  by_cases hany : store.any (fun x => decide (x.id = r.id)) = true
  · rw [if_pos hany, filter_map_replace_rows]
    have hone : countId store r.id = 1 :=
      Nat.le_antisymm h (countId_pos_of_any store r.id hany)
    rw [hone]
    rfl
  · rw [if_neg hany, List.filter_append]
    have h0 : store.filter (fun x => decide (x.id = r.id)) = [] := by
      rw [List.filter_eq_nil_iff]
      intro x hx
      intro hxr
      exact hany (List.any_eq_true.mpr ⟨x, hx, hxr⟩)
    rw [h0]
    simp

/-- C9: the message write path is an idempotent overwrite keyed by event id:
flushing the same event id twice through `processMessageBatch` leaves
exactly one row for that id in the store, holding the content of the second
delivery; and at queue level a second `enqueue` of the same `(id, message)`
key overwrites the single pending entry with the latest item. -/
theorem C9_idempotent_upsert (now1 now2 : String) (st : QState)
    (store : List MessageRow) (m1 m2 : QueueItem)
    (hid : m1.eventId = m2.eventId)
    (htype2 : m2.type = Lane.message)
    (hcount : countId store m2.eventId ≤ 1)
    (hproc : mhas st.processing (itemKey m2) = false) :
    ((processMessageBatch now2 true st
        (processMessageBatch now1 true st store [m1]).2 [m2]).2.filter
          (fun r => decide (r.id = m2.eventId))) = [formatMessage m2] ∧
    countId (processMessageBatch now2 true st
        (processMessageBatch now1 true st store [m1]).2 [m2]).2 m2.eventId = 1 ∧
    mget (enqueue now2 (enqueue now1 st m1) m2).queue (itemKey m2) =
      some (stamp now2 m2) := by
  have hb1 : (processMessageBatch now1 true st store [m1]).2 =
      upsertRow store (formatMessage m1) := rfl
  have hb2 : ∀ s : List MessageRow, (processMessageBatch now2 true st s [m2]).2 =
      upsertRow s (formatMessage m2) := fun s => rfl
  have hfm1 : (formatMessage m1).id = m2.eventId := hid
  have hs1 : (upsertRow store (formatMessage m1)).filter
      (fun x => decide (x.id = m2.eventId)) = [formatMessage m1] := by
    have h := upsertRow_filter store (formatMessage m1) (by
      show countId store (formatMessage m1).id ≤ 1
      rw [show (formatMessage m1).id = m2.eventId from hfm1]
      exact hcount)
    rw [show (formatMessage m1).id = m2.eventId from hfm1] at h
    exact h
  have hcount1 : countId (upsertRow store (formatMessage m1)) m2.eventId = 1 := by
    unfold countId
    rw [hs1]
    rfl
  have hs2 : (upsertRow (upsertRow store (formatMessage m1)) (formatMessage m2)).filter
      (fun x => decide (x.id = m2.eventId)) = [formatMessage m2] := by
    have h := upsertRow_filter (upsertRow store (formatMessage m1)) (formatMessage m2) (by
      show countId (upsertRow store (formatMessage m1)) (formatMessage m2).id ≤ 1
      rw [show (formatMessage m2).id = m2.eventId from rfl, hcount1])
    rw [show (formatMessage m2).id = m2.eventId from rfl] at h
    exact h
  refine ⟨?_, ?_, ?_⟩
  · rw [hb2, hb1]
    exact hs2
  · rw [hb2, hb1]
    unfold countId
    rw [hs2]
    rfl
  · have henq2 := enqueue_nonretry now2 (enqueue now1 st m1) m2
      (by rw [enqueue_processing_eq]; exact hproc)
      (by rw [htype2]; exact fun hc => Lane.noConfusion hc)
    rw [henq2]
    exact mget_mset_self _ _ _

/-- Witness for C9: the same event id delivered as `itMsg` then `itMsg2`
(different content) over an empty store and an empty queue. -/
theorem C9_idempotent_upsert_witness :
    itMsg.eventId = itMsg2.eventId ∧
    itMsg2.type = Lane.message ∧
    (((processMessageBatch "t2" true QState.empty
          (processMessageBatch "t1" true QState.empty [] [itMsg]).2 [itMsg2]).2.filter
            (fun r => decide (r.id = itMsg2.eventId))) = [formatMessage itMsg2] ∧
     countId (processMessageBatch "t2" true QState.empty
          (processMessageBatch "t1" true QState.empty [] [itMsg]).2 [itMsg2]).2
        itMsg2.eventId = 1 ∧
     mget (enqueue "t2" (enqueue "t1" QState.empty itMsg) itMsg2).queue (itemKey itMsg2) =
       some (stamp "t2" itMsg2)) :=
  ⟨rfl, rfl,
    C9_idempotent_upsert "t1" "t2" QState.empty [] itMsg itMsg2 rfl rfl
      (by decide) (by decide)⟩

/-! Lemmas on the drain loop: nothing on the processing lane ever shrinks. -/

theorem foldl_enqueue_retry_processing (now : String) (items : List QueueItem) (st : QState) :
    (items.foldl (fun st m => enqueue now st { m with type := Lane.retry }) st).processing =
      st.processing := by
  induction items generalizing st with
  | nil => rfl
  | cons it rest ih =>
      rw [List.foldl_cons, ih, enqueue_processing_eq]

theorem processMessageBatch_state (now : String) (writeOk : Bool) (st : QState)
    (store : List MessageRow) (msgs : List QueueItem) :
    (processMessageBatch now writeOk st store msgs).1.processing = st.processing := by
  unfold processMessageBatch
  split
  · rfl
  · split
    · rfl
    · exact foldl_enqueue_retry_processing now msgs st

theorem processRetryDecryption_processing (now : String) (dec : String → DecryptResult)
    (st : QState) (items : List QueueItem) :
    (processRetryDecryption now dec st items).processing = st.processing := by
  induction items generalizing st with
  | nil => rfl
  | cons it rest ih =>
      unfold processRetryDecryption at *
      rw [List.foldl_cons, ih]
      unfold retryDecryptionStep
      cases dec it.eventId
      · exact enqueue_processing_eq _ _ _
      · exact enqueue_processing_eq _ _ _
      · rfl

theorem foldl_dequeueStep_processing_le (ks : List Key) (acc : List QueueItem × QState) :
    acc.2.processing.length ≤ ((ks.foldl dequeueStep acc).2).processing.length := by
  induction ks generalizing acc with
  | nil => exact le_rfl
  | cons k ks ih =>
      rw [List.foldl_cons]
      refine le_trans ?_ (ih (dequeueStep acc k))
      unfold dequeueStep
      cases h : mget acc.2.queue k
      · exact le_rfl
      · exact length_mset_ge _ _ _

theorem foldl_dequeueStep_cases (ks : List Key) (acc : List QueueItem × QState) :
    ks.foldl dequeueStep acc = acc ∨
      0 < ((ks.foldl dequeueStep acc).2).processing.length := by
  induction ks generalizing acc with
  | nil => exact Or.inl rfl
  | cons k ks ih =>
      rw [List.foldl_cons]
      cases h : mget acc.2.queue k with
      | none =>
          have hstep : dequeueStep acc k = acc := by
            unfold dequeueStep
            rw [h]
          rw [hstep]
          exact ih acc
      | some v =>
          right
          have hstep : dequeueStep acc k =
              (acc.1 ++ [v],
               { acc.2 with queue := mdelete acc.2.queue k,
                            processing := mset acc.2.processing k v }) := by
            unfold dequeueStep
            rw [h]
          rw [hstep]
          refine Nat.lt_of_lt_of_le ?_ (foldl_dequeueStep_processing_le ks _)
          exact length_mset_pos acc.2.processing k v

theorem dequeue_state_cases (st : QState) (bs : Nat) :
    dequeue st bs = ([], st) ∨ 0 < (dequeue st bs).2.processing.length := by
  have h := foldl_dequeueStep_cases
    ((((st.queue.map Prod.fst).filter (fun k => freshKey st.queue k)).take bs) ++
      (((st.queue.map Prod.fst).filter (fun k => !(freshKey st.queue k))).take
        (bs - (((st.queue.map Prod.fst).filter (fun k => freshKey st.queue k)).take bs).length)))
    ([], st)
  rcases h with h | h
  · left
    exact h
  · right
    exact h

theorem dequeue_processing_le (st : QState) (bs : Nat) :
    st.processing.length ≤ (dequeue st bs).2.processing.length :=
  foldl_dequeueStep_processing_le
    ((((st.queue.map Prod.fst).filter (fun k => freshKey st.queue k)).take bs) ++
      (((st.queue.map Prod.fst).filter (fun k => !(freshKey st.queue k))).take
        (bs - (((st.queue.map Prod.fst).filter (fun k => freshKey st.queue k)).take bs).length)))
    ([], st)

theorem drainStep_processing (now : String) (bs : Nat) (writeOk : Bool)
    (dec : String → DecryptResult) (s : QState × List MessageRow) :
    (drainStep now bs writeOk dec s).1.processing = (dequeue s.1 bs).2.processing := by
  unfold drainStep
  by_cases hb : (dequeue s.1 bs).1.isEmpty
  · simp only [hb, if_true]
  · simp only [hb, Bool.false_eq_true, if_false]
    rw [processRetryDecryption_processing, processMessageBatch_state]

theorem drainStep_invariant (now : String) (bs : Nat) (writeOk : Bool)
    (dec : String → DecryptResult) (s : QState × List MessageRow)
    (h : 0 < s.1.queue.length + s.1.processing.length) :
    0 < (drainStep now bs writeOk dec s).1.queue.length +
        (drainStep now bs writeOk dec s).1.processing.length := by
  have hproc := drainStep_processing now bs writeOk dec s
  rcases dequeue_state_cases s.1 bs with hsame | hpos
  · have hb : (dequeue s.1 bs).1.isEmpty = true := by rw [hsame]; rfl
    unfold drainStep
    simp only [hb, if_true]
    rw [hsame]
    exact h
  · rw [hproc]
    omega

/-- C2: the queue-drain loop of `stopSync` does not terminate when any item
is in the pending or processing lane: the loop guard `size() > 0` still
holds after every number of iterations of the loop body, because dequeued
items enter the processing lane and no lane processor ever removes them,
while `size()` counts the processing lane. -/
theorem C2_drain_guard_persists (now : String) (bs : Nat) (writeOk : Bool)
    (dec : String → DecryptResult) (st : QState) (store : List MessageRow)
    (h : 0 < st.queue.length + st.processing.length) :
    ∀ n, 0 < qsize (drainN now bs writeOk dec n (st, store)).1 := by
  have key : ∀ n (s : QState × List MessageRow),
      0 < s.1.queue.length + s.1.processing.length →
      0 < (drainN now bs writeOk dec n s).1.queue.length +
          (drainN now bs writeOk dec n s).1.processing.length := by
    intro n
    induction n with
    | zero => intro s hs; exact hs
    | succ n ih =>
        intro s hs
        rw [drainN]
        exact ih _ (drainStep_invariant now bs writeOk dec s hs)
  intro n
  have hn := key n (st, store) h
  unfold qsize
  omega

/-- Witness for C2: one message item enqueued and never removed — the drain
guard still holds after 5 iterations. -/
theorem C2_drain_guard_persists_witness :
    0 < oneMsgSt.queue.length + oneMsgSt.processing.length ∧
    0 < qsize (drainN "t1" 1000 true decFail 5 (oneMsgSt, [])).1 :=
  ⟨by decide, C2_drain_guard_persists "t1" 1000 true decFail oneMsgSt [] (by decide) 5⟩

/-- C10: the successful flush path never removes items from the processing
lane: after one drain iteration with a succeeding batched write, every item
of the dequeued batch is still in the processing lane, and the processing
count reported by `getStatus` has not decreased. -/
theorem C10_processing_retained (now : String) (bs : Nat) (dec : String → DecryptResult)
    (st : QState) (store : List MessageRow)
    (hkc : ∀ p ∈ st.queue, p.1 = itemKey p.2) :
    (∀ it ∈ (dequeue st bs).1,
        mhas (drainStep now bs true dec (st, store)).1.processing (itemKey it) = true) ∧
    (getStatus st).2.1 ≤ (getStatus (drainStep now bs true dec (st, store)).1).2.1 := by
  have hproc := drainStep_processing now bs true dec (st, store)
  constructor
  · intro it hit
    rw [hproc]
    have hmoved := foldl_dequeueStep_moved
      ((((st.queue.map Prod.fst).filter (fun k => freshKey st.queue k)).take bs) ++
        (((st.queue.map Prod.fst).filter (fun k => !(freshKey st.queue k))).take
          (bs - (((st.queue.map Prod.fst).filter (fun k => freshKey st.queue k)).take bs).length)))
      ([], st) hkc (fun it2 hit2 => absurd hit2 (List.not_mem_nil it2))
    exact (hmoved it hit).2
  · show st.processing.length ≤ (drainStep now bs true dec (st, store)).1.processing.length
    rw [hproc]
    exact dequeue_processing_le st bs

/-- Witness for C10 at the concrete pending state `mixSt`. -/
theorem C10_processing_retained_witness :
    (∀ p ∈ mixSt.queue, p.1 = itemKey p.2) ∧
    ((∀ it ∈ (dequeue mixSt 2).1,
        mhas (drainStep "t1" 2 true decFail (mixSt, [])).1.processing (itemKey it) = true) ∧
     (getStatus mixSt).2.1 ≤ (getStatus (drainStep "t1" 2 true decFail (mixSt, [])).1).2.1) :=
  ⟨by decide, C10_processing_retained "t1" 2 decFail mixSt [] (by decide)⟩

end ETL
